import Mathlib

/-!
Shallow embedding of the Hybrid A* planner of hybrid_astar.py
(repository tplaysted/dubins) together with the test-case data of
test_cases/cases.py.

Modelling conventions:
* Python floats are modelled by the rationals ℚ; a pose [x, y, theta] becomes
  the structure Pose; the heterogeneous list grid_pos = [cell_x, cell_y, theta]
  becomes the structure GridPos.
* The collaborators imported by hybrid_astar.py (grid.py, car.py,
  environment.py, dubins_path.py, astar.py, utils.py) are not part of the
  sources; they are modelled as opaque function fields of the structure
  Config (step, get_params, the two route-safety checks, find_tangents,
  best_tangent, astar_search, to_cell_id, round_theta, get_path).
* The derived quantity drive_steps = int(sqrt(2) * cell_size / dt) + 1
  involves the irrational sqrt(2), and the normalisation theta % (2 * pi)
  involves the irrational pi, so drive_steps and two_pi are carried as
  parameters of Config; arc = drive_steps * dt is defined from them exactly
  as on line 59 of the source.
* Node.branches (diagnostic drawing data only, never read by the search) and
  the None initial values of g, g_, f (always overwritten before use) are
  omitted; Node.phi starts at 0 and Node.parent at none, as in Node.__init__.
* The unbounded while loop of search_path is modelled with explicit fuel;
  an extra result constructor out_of_fuel marks the states the Python loop
  would still be working on.
-/

/-- A continuous pose [x, y, theta]. -/
structure Pose where
  x : ℚ
  y : ℚ
  theta : ℚ
deriving DecidableEq, Repr

/-- The discrete search key grid_pos = cell_id + [rounded theta]. -/
structure GridPos where
  cell_x : ℤ
  cell_y : ℤ
  theta : ℚ
deriving DecidableEq, Repr

/-- A planar point, pos[:2] in the Python source. -/
abbrev Point := ℚ × ℚ

/-- One element of a backtracked route: (node.pos, node.phi). -/
abbrev RouteItem := Pose × ℚ

/-- Hybrid A* tree node (class Node of hybrid_astar.py).  The parent
back-reference makes the type recursive, hence an inductive. -/
inductive Node : Type where
  | mk (grid_pos : GridPos) (pos : Pose) (g : ℚ) (g_ : ℚ) (f : ℚ)
      (phi : ℚ) (parent : Option Node)

/-- Field accessor: the discrete key. -/
def Node.grid_pos : Node → GridPos
  | .mk gp _ _ _ _ _ _ => gp

/-- Field accessor: the continuous pose. -/
def Node.pos : Node → Pose
  | .mk _ p _ _ _ _ _ => p

/-- Field accessor: accumulated search cost g. -/
def Node.g : Node → ℚ
  | .mk _ _ g _ _ _ _ => g

/-- Field accessor: accumulated arc length g_. -/
def Node.g_ : Node → ℚ
  | .mk _ _ _ g_ _ _ _ => g_

/-- Field accessor: priority f. -/
def Node.f : Node → ℚ
  | .mk _ _ _ _ f _ _ => f

/-- Field accessor: the steering input that produced the node. -/
def Node.phi : Node → ℚ
  | .mk _ _ _ _ _ phi _ => phi

/-- Field accessor: the parent back-reference. -/
def Node.parent : Node → Option Node
  | .mk _ _ _ _ _ _ p => p

/-- Python Node.__eq__: equality solely on grid_pos. -/
def node_eq (a b : Node) : Bool := decide (a.grid_pos = b.grid_pos)

/-- Python membership test (child in lst), which compares with Node.__eq__. -/
def mem_eq (n : Node) (l : List Node) : Bool := l.any (fun m => node_eq m n)

/-- Python lst.remove(n): drop the first element comparing equal (by
Node.__eq__) to n. -/
def remove_first_eq : List Node → Node → List Node
  | [], _ => []
  | x :: xs, n => if node_eq x n then xs else x :: remove_first_eq xs n

/-- The configuration of a HybridAstar instance: the numeric attributes set
in HybridAstar.__init__ together with the collaborator functions imported
from the modules that are outside the given sources. -/
structure Config : Type 1 where
  Sol : Type
  PathOut : Type
  start : Pose
  goal : Pose
  max_phi : ℚ
  cell_size : ℚ
  dt : ℚ
  check_dubins : ℕ
  drive_steps : ℕ
  thetas : List ℚ
  two_pi : ℚ
  step : Pose → ℚ → Pose
  get_params : Pose → ℚ → ℚ × Point × ℚ
  is_straight_route_safe : Pose → Pose → Bool
  is_turning_route_safe : Pose → Pose → ℚ → Point → ℚ → Bool
  find_tangents : Pose → Pose → Sol
  best_tangent : Sol → List RouteItem × ℚ × Bool
  astar_search : Point → ℚ
  to_cell_id : Point → ℤ × ℤ
  round_theta : ℚ → List ℚ → ℚ
  get_path : Pose → List RouteItem → PathOut

/-- Line 59: self.arc = self.drive_steps * self.dt. -/
def Config.arc (cfg : Config) : ℚ := (cfg.drive_steps : ℚ) * cfg.dt

/-- Line 60: self.phil = [-self.car.max_phi, 0, self.car.max_phi]. -/
def Config.phil (cfg : Config) : List ℚ := [-cfg.max_phi, 0, cfg.max_phi]

/-- Line 65: self.w1 = 0.95, weight for astar heuristic. -/
def w1 : ℚ := 0.95

/-- Line 66: self.w2 = 0.05, weight for simple heuristic. -/
def w2 : ℚ := 0.05

/-- Line 67: self.w3 = 0.40, weight for extra cost of steering angle change. -/
def w3 : ℚ := 0.40

/-- Line 68: self.w4 = 0.20, weight for extra cost of turning. -/
def w4 : ℚ := 0.20

/-- Python float modulo a % b (for b positive): a - b * floor (a / b). -/
def fmod (a b : ℚ) : ℚ := a - b * ⌊a / b⌋

/-- HybridAstar.construct_node: create node for a pos (lines 72 to 85).
grid_pos is the cell id of pos[:2] extended with theta rounded, after
normalisation modulo 2 * pi, to the discretized theta list. -/
def construct_node (cfg : Config) (pos : Pose) : Node :=
  let theta := cfg.round_theta (fmod pos.theta cfg.two_pi) cfg.thetas
  let cid := cfg.to_cell_id (pos.x, pos.y)
  Node.mk ⟨cid.1, cid.2, theta⟩ pos 0 0 0 0 none

/-- The DiscreteState of a pose: exactly the grid_pos that construct_node
assigns. -/
def discrete_state (cfg : Config) (pos : Pose) : GridPos :=
  ⟨(cfg.to_cell_id (pos.x, pos.y)).1, (cfg.to_cell_id (pos.x, pos.y)).2,
    cfg.round_theta (fmod pos.theta cfg.two_pi) cfg.thetas⟩

/-- HybridAstar.simple_heuristic (lines 87 to 90): heuristic by Manhattan
distance, abs(goal[0]-pos[0]) + abs(goal[1]-pos[1]). -/
def simple_heuristic (cfg : Config) (p : Point) : ℚ :=
  |cfg.goal.x - p.1| + |cfg.goal.y - p.2|

/-- HybridAstar.astar_heuristic (lines 92 to 98):
w1 * (astar.search_path(pos[:2]) * cell_size) + w2 * simple_heuristic(pos[:2]). -/
def astar_heuristic (cfg : Config) (pos : Pose) : ℚ :=
  let h1 := cfg.astar_search (pos.x, pos.y) * cfg.cell_size
  let h2 := simple_heuristic cfg (pos.x, pos.y)
  w1 * h1 + w2 * h2

/-- The inner simulation loop of get_children (lines 109 to 111): iterate
car.step drive_steps times under the fixed steering input phi. -/
def drive (cfg : Config) (pos : Pose) (phi : ℚ) : Pose :=
  (fun p => cfg.step p phi)^[cfg.drive_steps] pos

/-- The safety check of get_children (lines 113 to 119): straight-route
check for phi = 0, turning-route check with car.get_params otherwise. -/
def route_safe (cfg : Config) (node_pos pos : Pose) (phi : ℚ) : Bool :=
  if phi = 0 then cfg.is_straight_route_safe node_pos pos
  else
    let dcr := cfg.get_params node_pos phi
    cfg.is_turning_route_safe node_pos pos dcr.1 dcr.2.1 dcr.2.2

/-- Child construction of get_children (lines 124 to 142): construct the
node for the driven pose, record phi and the parent, set
g_ = node.g_ + arc and g = node.g + arc plus, when extra is set, w3 * arc
for a steering change and w4 * arc for turning, then set
f = g + heuristic according to the mode heu (0 simple, 1 astar). -/
def mk_child (cfg : Config) (node : Node) (phi : ℚ) (pos : Pose)
    (heu : ℕ) (extra : Bool) : Node :=
  let gp := discrete_state cfg pos
  let g := node.g + cfg.arc
  let g := if extra ∧ phi ≠ node.phi then g + w3 * cfg.arc else g
  let g := if extra ∧ phi ≠ 0 then g + w4 * cfg.arc else g
  let g_ := node.g_ + cfg.arc
  let f :=
    if heu = 0 then g + simple_heuristic cfg (pos.x, pos.y)
    else if heu = 1 then g + astar_heuristic cfg pos
    else 0
  Node.mk gp pos g g_ f phi (some node)

/-- One steering branch of get_children: drive, check safety, build the
child; none when the route is unsafe (the continue on line 122). -/
def child_of (cfg : Config) (node : Node) (heu : ℕ) (extra : Bool)
    (phi : ℚ) : Option Node :=
  let pos := drive cfg node.pos phi
  if route_safe cfg node.pos pos phi then
    some (mk_child cfg node phi pos heu extra)
  else none

/-- HybridAstar.get_children (lines 100 to 147): successors from a state,
one per safe steering input of phil.  The branch bookkeeping kept for
plotting is omitted. -/
def get_children (cfg : Config) (node : Node) (heu : ℕ) (extra : Bool) :
    List Node :=
  cfg.phil.filterMap (child_of cfg node heu extra)

/-- Admission of one child (lines 220 to 230 of search_path): a child in
the closed list is discarded; a child matching no open node is appended;
otherwise it replaces the first matching open entry exactly when its g is
strictly smaller. -/
def admit_child (closed_ open_ : List Node) (child : Node) : List Node :=
  if mem_eq child closed_ then open_
  else
    match open_.find? (fun m => node_eq m child) with
    | none => open_ ++ [child]
    | some ex =>
        if child.g < ex.g then remove_first_eq open_ child ++ [child]
        else open_

/-- Admission of a whole children list, in order (the for loop on
line 220). -/
def admit_children (closed_ open_ : List Node) (children : List Node) :
    List Node :=
  children.foldl (admit_child closed_) open_

/-- Python min(open_, key=lambda x: x.f) on a non-empty list: fold keeping
the incumbent unless the next element is strictly smaller, which returns
the first element attaining the minimal f. -/
def py_min_aux (best : Node) : List Node → Node
  | [] => best
  | x :: xs => py_min_aux (if x.f < best.f then x else best) xs

/-- The while loop of HybridAstar.backtracking, producing the route in
back-to-front order: while node.parent, append (node.pos, node.phi) and
move to the parent. -/
def backtracking_rev : Node → List RouteItem
  | .mk _ _ _ _ _ _ none => []
  | .mk _ pos _ _ _ phi (some p) => (pos, phi) :: backtracking_rev p

/-- HybridAstar.backtracking (lines 170 to 178): the reversed walk of the
parent chain. -/
def backtracking (node : Node) : List RouteItem :=
  (backtracking_rev node).reverse

/-- Python open_.sort(key=lambda x: x.f), a stable ascending sort by f
(line 152). -/
def sort_by_f (l : List Node) : List Node :=
  l.mergeSort (fun a b => decide (a.f ≤ b.f))

/-- The composed dubins query used on lines 156 to 157 and 205 to 206:
best_tangent of find_tangents from a pose to the goal, returning
(d_route, cost, valid). -/
def tangent_to_goal (cfg : Config) (pos : Pose) : List RouteItem × ℚ × Bool :=
  cfg.best_tangent (cfg.find_tangents pos cfg.goal)

/-- One candidate test of the for loop of best_final_shot (lines 154 to
163): the incumbent (best, cost, d_route) is replaced exactly when the
candidate tangent is valid and cost_ + best_.g_ < cost + best.g_. -/
def bfs_step (cfg : Config) (acc : Node × ℚ × List RouteItem) (cand : Node) :
    Node × ℚ × List RouteItem :=
  let t := tangent_to_goal cfg cand.pos
  if t.2.2 ∧ t.2.1 + cand.g_ < acc.2.1 + acc.1.g_ then (cand, t.2.1, t.1)
  else acc

/-- HybridAstar.best_final_shot (lines 149 to 168): sort the open list by
f, scan its first min(n, length) entries refining the incumbent, then move
the winner from the open list to the closed list when it is an open entry.
Returns (best, cost, d_route, open_, closed_); the Python version mutates
open_ and closed_ in place. -/
def best_final_shot (cfg : Config) (open_ closed_ : List Node) (best : Node)
    (cost : ℚ) (d_route : List RouteItem) (n : ℕ) :
    Node × ℚ × List RouteItem × List Node × List Node :=
  let sorted := sort_by_f open_
  let r := (sorted.take n).foldl (bfs_step cfg) (best, cost, d_route)
  if mem_eq r.1 sorted then
    (r.1, r.2.1, r.2.2, remove_first_eq sorted r.1, closed_ ++ [r.1])
  else (r.1, r.2.1, r.2.2, sorted, closed_)

/-- Result of search_path: a found path with the closed list (the return
on line 216), the explicit no-path sentinel (None, None) of line 232, or
the fuel marker for states the Python while loop is still processing. -/
inductive SearchResult (cfg : Config) : Type where
  | found (path : cfg.PathOut) (closed_ : List Node)
  | no_path
  | out_of_fuel (open_ closed_ : List Node) (count : ℕ)

/-- The root node of search_path (lines 183 to 190): the node of the start
pose with g = g_ = 0 and f = g + heuristic according to the mode. -/
def search_root (cfg : Config) (heu : ℕ) : Node :=
  let root := construct_node cfg cfg.start
  let g : ℚ := 0
  let g_ : ℚ := 0
  let f :=
    if heu = 0 then g + simple_heuristic cfg (root.pos.x, root.pos.y)
    else if heu = 1 then g + astar_heuristic cfg root.pos
    else 0
  Node.mk root.grid_pos root.pos g g_ f root.phi root.parent

/-- The expansion tail of one loop iteration (lines 218 to 230): admit the
children of the popped node into the open list. -/
def expand_step (cfg : Config) (heu : ℕ) (extra : Bool) (best : Node)
    (open_ closed_ : List Node) : List Node :=
  admit_children closed_ open_ (get_children cfg best heu extra)

/-- The body of one loop iteration after the pop (lines 203 to 230): on a
check_dubins iteration with a valid tangent the search terminates through
best_final_shot with path = get_path(start, backtracking(best) + d_route);
otherwise the popped node is expanded.  Returns either the terminal result
or the next (open_, closed_) pair. -/
def search_step (cfg : Config) (heu : ℕ) (extra : Bool) (best : Node)
    (open_ closed_ : List Node) (count : ℕ) :
    SearchResult cfg ⊕ List Node × List Node :=
  if count % cfg.check_dubins = 0 then
    let t := tangent_to_goal cfg best.pos
    if t.2.2 then
      let r := best_final_shot cfg open_ closed_ best t.2.1 t.1 10
      let route := backtracking r.1 ++ r.2.2.1
      Sum.inl (SearchResult.found (cfg.get_path cfg.start route) r.2.2.2.2)
    else Sum.inr (expand_step cfg heu extra best open_ closed_, closed_)
  else Sum.inr (expand_step cfg heu extra best open_ closed_, closed_)

/-- The while loop of search_path (lines 195 to 232), with fuel: an empty
open list returns the no-path sentinel; otherwise pop the minimum-f node
(first minimal by scan order), move it to the closed list, and run the
iteration body. -/
def search_loop (cfg : Config) (heu : ℕ) (extra : Bool) :
    ℕ → List Node → List Node → ℕ → SearchResult cfg
  | _, [], _, _ => SearchResult.no_path
  | 0, x :: xs, closed_, count => SearchResult.out_of_fuel (x :: xs) closed_ count
  | fuel + 1, x :: xs, closed_, count =>
      let best := py_min_aux x xs
      let open1 := remove_first_eq (x :: xs) best
      let closed1 := closed_ ++ [best]
      match search_step cfg heu extra best open1 closed1 (count + 1) with
      | Sum.inl r => r
      | Sum.inr oc => search_loop cfg heu extra fuel oc.1 oc.2 (count + 1)

/-- HybridAstar.search_path (lines 180 to 232): run the loop from the
single-element open list holding the root. -/
def search_path (cfg : Config) (heu : ℕ) (extra : Bool) (fuel : ℕ) :
    SearchResult cfg :=
  search_loop cfg heu extra fuel [search_root cfg heu] [] 0

/-- Modelled from the spec: the eager configuration validation performed at
construction.  The constructors of the collaborator classes (grid.py,
car.py and the modules built from them) are not among the given sources;
per the spec, a cell size that is not positive or a maximum steering angle
of at least pi/2 is rejected with an explicit error before any search work
is performed, so validation returns the configuration only when both
checks pass.  half_pi is carried as a parameter because pi/2 is
irrational. -/
def mk_planner (half_pi : ℚ) (cfg : Config) : Except String Config :=
  if cfg.cell_size ≤ 0 then Except.error "cell size must be positive"
  else if half_pi ≤ cfg.max_phi then
    Except.error "max steering angle must be smaller than pi over 2"
  else Except.ok cfg

/-- Child-reachability: the root together with everything produced from a
reachable node by get_children.  This is the parent-chain structure of the
search tree. -/
inductive ReachNode (cfg : Config) (heu : ℕ) (extra : Bool) : Node → Prop where
  | root : ReachNode cfg heu extra (search_root cfg heu)
  | child (p c : Node) : ReachNode cfg heu extra p →
      c ∈ get_children cfg p heu extra → ReachNode cfg heu extra c

/-- Loop-state reachability: the (open_, closed_, count) states at the head
of the while loop of search_path. -/
inductive SearchReach (cfg : Config) (heu : ℕ) (extra : Bool) :
    List Node → List Node → ℕ → Prop where
  | init : SearchReach cfg heu extra [search_root cfg heu] [] 0
  | step (x : Node) (xs closed_ : List Node) (count : ℕ)
      (o2 c2 : List Node) :
      SearchReach cfg heu extra (x :: xs) closed_ count →
      search_step cfg heu extra (py_min_aux x xs)
        (remove_first_eq (x :: xs) (py_min_aux x xs))
        (closed_ ++ [py_min_aux x xs]) (count + 1) = Sum.inr (o2, c2) →
      SearchReach cfg heu extra o2 c2 (count + 1)

/-- A trivial collaborator configuration used to instantiate theorems with
hypotheses on concrete inputs. -/
def sample_cfg : Config where
  Sol := Unit
  PathOut := List RouteItem
  start := ⟨0, 0, 0⟩
  goal := ⟨0, 0, 0⟩
  max_phi := 1
  cell_size := 1
  dt := 1
  check_dubins := 1
  drive_steps := 1
  thetas := [0]
  two_pi := 7
  step := fun p _ => p
  get_params := fun _ _ => (1, (0, 0), 1)
  is_straight_route_safe := fun _ _ => true
  is_turning_route_safe := fun _ _ _ _ _ => true
  find_tangents := fun _ _ => ()
  best_tangent := fun _ => ([], 0, false)
  astar_search := fun _ => 0
  to_cell_id := fun p => (⌊p.1⌋, ⌊p.2⌋)
  round_theta := fun t _ => t
  get_path := fun _ r => r

/-- A collaborator configuration whose dubins query always reports a valid
connection of length 0, for concrete instantiation of the shortcut
theorems. -/
def sample_cfg_valid : Config :=
  { sample_cfg with best_tangent := fun _ => ([], 0, true) }

/-- Concrete node with discrete key (0, 0, 0), used to instantiate theorems
with hypotheses. -/
def nodeA : Node := Node.mk ⟨0, 0, 0⟩ ⟨0, 0, 0⟩ 0 0 0 0 none

/-- Concrete node sharing the discrete key of nodeA but with a different
continuous pose and costs. -/
def nodeB : Node := Node.mk ⟨0, 0, 0⟩ ⟨1/2, 1/2, 0⟩ 3 3 5 0 none

/-- Concrete node with discrete key (1, 0, 0). -/
def nodeC : Node := Node.mk ⟨1, 0, 0⟩ ⟨1, 0, 0⟩ 1 1 2 0 none

/-- Configuration with an invalid (zero) cell size. -/
def cfg_bad : Config := { sample_cfg with cell_size := 0 }

/-- Configuration whose start pose is (3, 4, 0), at Manhattan distance 7 and
Euclidean distance 5 from the goal (0, 0). -/
def cfg_ce : Config := { sample_cfg with start := ⟨3, 4, 0⟩ }

/-- Membership by Node.__eq__ holds exactly when some list element carries
the same grid_pos. -/
theorem mem_eq_iff (n : Node) (l : List Node) :
    mem_eq n l = true ↔ ∃ m ∈ l, m.grid_pos = n.grid_pos := by
  simp [mem_eq, List.any_eq_true, node_eq]

/-- C1: once a node is on the closed list, any later child whose
DiscreteState (grid_pos) equals that of a closed node is discarded by the
admission step of search_path, leaving the open list unchanged, so the
state is never admitted to the open list and never re-expanded. -/
theorem closed_state_never_readmitted (closed_ open_ : List Node)
    (child : Node) (h : ∃ m ∈ closed_, m.grid_pos = child.grid_pos) :
    admit_child closed_ open_ child = open_ := by
  have hm : mem_eq child closed_ = true := (mem_eq_iff child closed_).mpr h
  simp [admit_child, hm]

/-- Witness for C1 at a concrete closed list, open list and child. -/
theorem closed_state_never_readmitted_witness :
    admit_child [nodeA] [nodeC] nodeB = [nodeC] :=
  closed_state_never_readmitted [nodeA] [nodeC] nodeB ⟨nodeA, by simp, rfl⟩

/-- C8: when the open list is exhausted, search_path returns the explicit
no-path sentinel (the Python return None, None), for every fuel bound,
closed list and iteration count; the function is total, so no exception is
possible. -/
theorem exhausted_open_returns_no_path (cfg : Config) (heu : ℕ)
    (extra : Bool) (fuel : ℕ) (closed_ : List Node) (count : ℕ) :
    search_loop cfg heu extra fuel [] closed_ count = SearchResult.no_path := by
  cases fuel <;> rfl

/-- C7: Node.__eq__ (and the derived hash) read only grid_pos, and
construct_node assigns as grid_pos exactly the DiscreteState of the pose,
so two constructed nodes compare equal exactly when the DiscreteStates of
their poses match, whatever the continuous poses are. -/
theorem node_equality_is_discrete (cfg : Config) :
    (∀ a b : Node, node_eq a b = true ↔ a.grid_pos = b.grid_pos) ∧
    (∀ p q : Pose,
      ((node_eq (construct_node cfg p) (construct_node cfg q)) = true ↔
        discrete_state cfg p = discrete_state cfg q) ∧
      (construct_node cfg p).grid_pos = discrete_state cfg p) := by
  refine ⟨fun a b => by simp [node_eq], fun p q => ⟨?_, rfl⟩⟩
  simp [node_eq, construct_node, discrete_state, Node.grid_pos]

/-- C9 (spec-modelled): a configuration with cell size at most 0 or with
maximum steering angle at least pi/2 is rejected with an explicit error by
the construction-time validation, before any search function can be
reached. -/
theorem invalid_config_rejected (half_pi : ℚ) (cfg : Config)
    (h : cfg.cell_size ≤ 0 ∨ half_pi ≤ cfg.max_phi) :
    ∃ msg, mk_planner half_pi cfg = Except.error msg := by
  rcases h with h | h
  · exact ⟨"cell size must be positive", by simp [mk_planner, h]⟩
  · by_cases hc : cfg.cell_size ≤ 0
    · exact ⟨"cell size must be positive", by simp [mk_planner, hc]⟩
    · exact ⟨"max steering angle must be smaller than pi over 2",
        by simp [mk_planner, hc, h]⟩

/-- Witness for C9 at a concrete invalid configuration. -/
theorem invalid_config_rejected_witness :
    ∃ msg, mk_planner (157/100) cfg_bad = Except.error msg :=
  invalid_config_rejected (157/100) cfg_bad
    (Or.inl (by norm_num [cfg_bad, sample_cfg]))

/-- Counterexample to C6 as stated: with goal (0, 0) the heuristic of the
pose (3, 4, 0) in the selectable simple mode is 7, the Manhattan distance,
whereas the straight-line distance is the unique nonnegative quantity whose
square is 3 squared plus 4 squared, namely 5; the code therefore does not
use the straight-line distance. -/
theorem simple_heuristic_not_straight_line :
    (search_root cfg_ce 0).f = 7 ∧ simple_heuristic cfg_ce (3, 4) = 7 ∧
    (5 : ℚ) ^ 2 = 3 ^ 2 + 4 ^ 2 ∧ (0 : ℚ) ≤ 5 ∧ (7 : ℚ) ≠ 5 := by
  refine ⟨?_, ?_, by norm_num, by norm_num, by norm_num⟩
  · norm_num [search_root, construct_node, simple_heuristic, cfg_ce,
      sample_cfg, Node.f, Node.pos]
  · norm_num [simple_heuristic, cfg_ce, sample_cfg]

/-- C6 (amended): f = g + heuristic(pose) for every node, where the grid
mode heuristic is w1 times the grid-search distance times the cell size
plus w2 times the Manhattan distance to the goal, and the selectable pure
mode (heu = 0) uses the Manhattan distance, not the straight-line
distance. -/
theorem priority_is_g_plus_heuristic (cfg : Config) :
    (∀ p : Point, simple_heuristic cfg p =
      |cfg.goal.x - p.1| + |cfg.goal.y - p.2|) ∧
    (∀ pos : Pose, astar_heuristic cfg pos =
      w1 * (cfg.astar_search (pos.x, pos.y) * cfg.cell_size) +
        w2 * simple_heuristic cfg (pos.x, pos.y)) ∧
    (∀ node phi pos extra,
      (mk_child cfg node phi pos 1 extra).f =
        (mk_child cfg node phi pos 1 extra).g + astar_heuristic cfg pos ∧
      (mk_child cfg node phi pos 0 extra).f =
        (mk_child cfg node phi pos 0 extra).g +
          simple_heuristic cfg (pos.x, pos.y)) ∧
    ((search_root cfg 1).f = (search_root cfg 1).g +
        astar_heuristic cfg cfg.start ∧
      (search_root cfg 0).f = (search_root cfg 0).g +
        simple_heuristic cfg (cfg.start.x, cfg.start.y)) := by
  refine ⟨fun p => rfl, fun pos => rfl, fun node phi pos extra => ⟨?_, ?_⟩, ?_, ?_⟩
  · simp [mk_child, Node.f, Node.g]
  · simp [mk_child, Node.f, Node.g]
  · simp [search_root, construct_node, Node.f, Node.g, Node.pos]
  · simp [search_root, construct_node, Node.f, Node.g, Node.pos]

/-- Arc length of a child: g_ grows by exactly arc. -/
theorem mk_child_g_ (cfg : Config) (node : Node) (phi : ℚ) (pos : Pose)
    (heu : ℕ) (extra : Bool) :
    (mk_child cfg node phi pos heu extra).g_ = node.g_ + cfg.arc := by
  simp [mk_child, Node.g_]

/-- Search cost of a child: g grows by arc plus the optional penalties. -/
theorem mk_child_g (cfg : Config) (node : Node) (phi : ℚ) (pos : Pose)
    (heu : ℕ) (extra : Bool) :
    (mk_child cfg node phi pos heu extra).g = node.g + cfg.arc
      + (if extra = true ∧ phi ≠ node.phi then w3 * cfg.arc else 0)
      + (if extra = true ∧ phi ≠ 0 then w4 * cfg.arc else 0) := by
  simp only [mk_child, Node.g]
  split_ifs <;> ring

/-- The parent back-reference of a child is the expanded node. -/
theorem mk_child_parent (cfg : Config) (node : Node) (phi : ℚ) (pos : Pose)
    (heu : ℕ) (extra : Bool) :
    (mk_child cfg node phi pos heu extra).parent = some node := by
  simp [mk_child, Node.parent]

/-- The arc length drive_steps * dt is nonnegative for nonnegative dt. -/
theorem arc_nonneg (cfg : Config) (h : 0 ≤ cfg.dt) : 0 ≤ cfg.arc :=
  mul_nonneg (by positivity) h

/-- Every member of get_children is mk_child of a steering input of phil
applied to the driven pose, with a passing safety check. -/
theorem mem_get_children {cfg : Config} {heu : ℕ} {extra : Bool}
    {p c : Node} (hc : c ∈ get_children cfg p heu extra) :
    ∃ phi ∈ cfg.phil,
      c = mk_child cfg p phi (drive cfg p.pos phi) heu extra ∧
      route_safe cfg p.pos (drive cfg p.pos phi) phi = true := by
  simp only [get_children, List.mem_filterMap] at hc
  obtain ⟨phi, hphi, hco⟩ := hc
  unfold child_of at hco
  by_cases hs : route_safe cfg p.pos (drive cfg p.pos phi) phi = true
  · simp only [hs, if_true] at hco
    exact ⟨phi, hphi, (Option.some.inj hco).symm, hs⟩
  · simp only [Bool.not_eq_true] at hs
    simp [hs] at hco

/-- Children never cost less than their parent. -/
theorem mk_child_g_mono (cfg : Config) (h : 0 ≤ cfg.dt) (node : Node)
    (phi : ℚ) (pos : Pose) (heu : ℕ) (extra : Bool) :
    node.g ≤ (mk_child cfg node phi pos heu extra).g := by
  have ha := arc_nonneg cfg h
  have h3 : (0 : ℚ) ≤ w3 * cfg.arc := mul_nonneg (by norm_num [w3]) ha
  have h4 : (0 : ℚ) ≤ w4 * cfg.arc := mul_nonneg (by norm_num [w4]) ha
  rw [mk_child_g]
  split_ifs <;> linarith

/-- Along the search tree, g and g_ stay nonnegative. -/
theorem reach_costs_nonneg (cfg : Config) (heu : ℕ) (extra : Bool)
    (h : 0 ≤ cfg.dt) :
    ∀ n, ReachNode cfg heu extra n → 0 ≤ n.g ∧ 0 ≤ n.g_ := by
  intro n hn
  induction hn with
  | root => exact ⟨by simp [search_root, Node.g], by simp [search_root, Node.g_]⟩
  | child p c hp hmem ih =>
      obtain ⟨phi, _, hceq, _⟩ := mem_get_children hmem
      subst hceq
      refine ⟨le_trans ih.1 (mk_child_g_mono cfg h p _ _ _ _), ?_⟩
      rw [mk_child_g_]
      have ha := arc_nonneg cfg h
      linarith [ih.2]

/-- C5: every admitted child has g_ = parent.g_ + arc and
g = parent.g + arc plus, only with extra cost enabled, w3 * arc on a
steering change and w4 * arc on a non-zero steering input; the root has
g = g_ = 0, children carry their parent as back-reference with g and g_
never smaller than the parent, and g and g_ stay nonnegative on every
node of the search tree. -/
theorem child_cost_accounting (cfg : Config) (heu : ℕ) (extra : Bool)
    (h : 0 ≤ cfg.dt) :
    (∀ node phi pos,
      (mk_child cfg node phi pos heu extra).g_ = node.g_ + cfg.arc ∧
      (mk_child cfg node phi pos heu extra).g = node.g + cfg.arc
        + (if extra = true ∧ phi ≠ node.phi then w3 * cfg.arc else 0)
        + (if extra = true ∧ phi ≠ 0 then w4 * cfg.arc else 0)) ∧
    ((search_root cfg heu).g = 0 ∧ (search_root cfg heu).g_ = 0) ∧
    (∀ p c, c ∈ get_children cfg p heu extra →
      c.parent = some p ∧ p.g ≤ c.g ∧ p.g_ ≤ c.g_) ∧
    (∀ n, ReachNode cfg heu extra n → 0 ≤ n.g ∧ 0 ≤ n.g_) := by
  refine ⟨fun node phi pos => ⟨mk_child_g_ cfg node phi pos heu extra,
      mk_child_g cfg node phi pos heu extra⟩,
    ⟨by simp [search_root, Node.g], by simp [search_root, Node.g_]⟩,
    fun p c hmem => ?_, reach_costs_nonneg cfg heu extra h⟩
  obtain ⟨phi, _, hceq, _⟩ := mem_get_children hmem
  subst hceq
  refine ⟨mk_child_parent cfg p _ _ heu extra,
    mk_child_g_mono cfg h p _ _ heu extra, ?_⟩
  rw [mk_child_g_]
  have ha := arc_nonneg cfg h
  linarith

/-- Witness for C5 at the trivial configuration. -/
theorem child_cost_accounting_witness :
    (0 : ℚ) ≤ sample_cfg.dt ∧
    ((search_root sample_cfg 0).g = 0 ∧ (search_root sample_cfg 0).g_ = 0) :=
  ⟨by norm_num [sample_cfg],
    (child_cost_accounting sample_cfg 0 false (by norm_num [sample_cfg])).2.1⟩

/-- On a pairwise grid-distinct list, find? with Node.__eq__ returns the
matching element exactly. -/
theorem find_first_match (child : Node) :
    ∀ l : List Node, l.Pairwise (fun a b => a.grid_pos ≠ b.grid_pos) →
    ∀ ex ∈ l, ex.grid_pos = child.grid_pos →
    l.find? (fun m => node_eq m child) = some ex := by
  intro l
  induction l with
  | nil => simp
  | cons y ys ih =>
      intro hp ex hex heq
      rcases List.mem_cons.mp hex with rfl | hex2
      · have : node_eq ex child = true := by simp [node_eq, heq]
        simp [List.find?_cons_of_pos, this]
      · have hy : y.grid_pos ≠ ex.grid_pos := (List.pairwise_cons.mp hp).1 ex hex2
        have hyc : node_eq y child = false := by
          simp only [node_eq, decide_eq_false_iff_not]
          rw [heq] at hy
          exact hy
        rw [List.find?_cons_of_neg _ (by simp [hyc])]
        exact ih (List.pairwise_cons.mp hp).2 ex hex2 heq

/-- Python remove on a list whose prefix has no matching grid_pos deletes
exactly the first matching element. -/
theorem remove_first_eq_append (child : Node) (m : Node) (l2 : List Node) :
    ∀ l1 : List Node, m.grid_pos = child.grid_pos →
    (∀ y ∈ l1, y.grid_pos ≠ child.grid_pos) →
    remove_first_eq (l1 ++ m :: l2) child = l1 ++ l2 := by
  intro l1
  induction l1 with
  | nil =>
      intro hm _
      simp [remove_first_eq, node_eq, hm]
  | cons y ys ih =>
      intro hm h1
      have hy : node_eq y child = false := by
        simp only [node_eq, decide_eq_false_iff_not]
        exact h1 y (by simp)
      simp only [List.cons_append, remove_first_eq, hy, Bool.false_eq_true,
        if_false, List.cons.injEq, true_and]
      exact ih hm fun z hz => h1 z (by simp [hz])

/-- C2: admission of a child that is not closed follows A* relaxation on
grid_pos: with no matching open node the child is appended; with a
matching open entry of smaller or equal g the child is discarded; with a
strictly larger recorded g the matching entry is removed and the child
appended in its place.  The open list is assumed pairwise grid-distinct
(the loop invariant). -/
theorem admission_relaxation (closed_ open_ : List Node) (child : Node)
    (hcl : mem_eq child closed_ = false)
    (hdist : open_.Pairwise (fun a b => a.grid_pos ≠ b.grid_pos)) :
    ((∀ m ∈ open_, m.grid_pos ≠ child.grid_pos) →
      admit_child closed_ open_ child = open_ ++ [child]) ∧
    (∀ ex ∈ open_, ex.grid_pos = child.grid_pos →
      (ex.g ≤ child.g → admit_child closed_ open_ child = open_) ∧
      (child.g < ex.g → ∃ l1 l2, open_ = l1 ++ ex :: l2 ∧
        admit_child closed_ open_ child = (l1 ++ l2) ++ [child])) := by
  constructor
  · intro hnone
    have hfind : open_.find? (fun m => node_eq m child) = none := by
      rw [List.find?_eq_none]
      intro m hm
      simp only [node_eq, decide_eq_true_eq]
      exact hnone m hm
    simp [admit_child, hcl, hfind]
  · intro ex hex heq
    have hfind := find_first_match child open_ hdist ex hex heq
    constructor
    · intro hge
      have : ¬ child.g < ex.g := not_lt.mpr hge
      simp [admit_child, hcl, hfind, this]
    · intro hlt
      obtain ⟨l1, l2, rfl⟩ := List.append_of_mem hex
      have h1 : ∀ y ∈ l1, y.grid_pos ≠ child.grid_pos := by
        intro y hy
        have := (List.pairwise_append.mp hdist).2.2 y hy ex (by simp)
        rw [heq] at this
        exact this
      have hrem := remove_first_eq_append child ex l2 l1 heq h1
      refine ⟨l1, l2, rfl, ?_⟩
      simp [admit_child, hcl, hfind, hlt, hrem]

/-- Witness for C2 at a concrete closed list, open list and cheaper
child. -/
theorem admission_relaxation_witness :
    ∃ l1 l2, [nodeB] = l1 ++ nodeB :: l2 ∧
      admit_child [] [nodeB] nodeA = (l1 ++ l2) ++ [nodeA] :=
  ((admission_relaxation [] [nodeB] nodeA rfl (by simp)).2 nodeB
    (by simp) rfl).2 (by norm_num [nodeA, nodeB, Node.g])

/-- The Python min fold never exceeds its seed nor any scanned element. -/
theorem py_min_aux_le (l : List Node) : ∀ b : Node,
    (py_min_aux b l).f ≤ b.f ∧ ∀ y ∈ l, (py_min_aux b l).f ≤ y.f := by
  induction l with
  | nil => exact fun b => ⟨le_rfl, by simp⟩
  | cons y ys ih =>
      intro b
      simp only [py_min_aux]
      by_cases hy : y.f < b.f
      · simp only [hy, if_true]
        refine ⟨le_trans (ih y).1 (le_of_lt hy), ?_⟩
        intro z hz
        rcases List.mem_cons.mp hz with hz1 | hz2
        · rw [hz1]; exact (ih y).1
        · exact (ih y).2 z hz2
      · simp only [hy, if_false]
        refine ⟨(ih b).1, ?_⟩
        intro z hz
        rcases List.mem_cons.mp hz with hz1 | hz2
        · rw [hz1]; exact le_trans (ih b).1 (not_lt.mp hy)
        · exact (ih b).2 z hz2

/-- The Python min fold returns the first element attaining the minimum:
everything strictly before it in scan order has strictly larger f. -/
theorem py_min_aux_first (l : List Node) : ∀ b : Node,
    ∃ l1 l2, b :: l = l1 ++ py_min_aux b l :: l2 ∧
      ∀ y ∈ l1, (py_min_aux b l).f < y.f := by
  induction l with
  | nil => exact fun b => ⟨[], [], rfl, by simp⟩
  | cons y ys ih =>
      intro b
      simp only [py_min_aux]
      by_cases hy : y.f < b.f
      · simp only [hy, if_true]
        obtain ⟨l1, l2, hsplit, hlt⟩ := ih y
        refine ⟨b :: l1, l2, by rw [List.cons_append, ← hsplit], ?_⟩
        intro z hz
        rcases List.mem_cons.mp hz with hz1 | hz2
        · rw [hz1]; exact lt_of_le_of_lt (py_min_aux_le ys y).1 hy
        · exact hlt z hz2
      · simp only [hy, if_false]
        obtain ⟨l1, l2, hsplit, hlt⟩ := ih b
        match l1, hsplit, hlt with
        | [], hsplit, hlt =>
            have hb : py_min_aux b ys = b := by
              have h2 := hsplit
              simp only [List.nil_append] at h2
              exact (List.cons.inj h2).1.symm
            exact ⟨[], y :: ys, by rw [hb]; simp, by simp⟩
        | a :: l1x, hsplit, hlt =>
            have ha : a = b ∧ ys = l1x ++ py_min_aux b ys :: l2 := by
              simp only [List.cons_append] at hsplit
              exact ⟨((List.cons.inj hsplit).1).symm, (List.cons.inj hsplit).2⟩
            refine ⟨b :: y :: l1x, l2, ?_, ?_⟩
            · simp only [List.cons_append, List.cons.injEq, true_and]
              exact ha.2
            · intro z hz
              have hbf : (py_min_aux b ys).f < b.f := ha.1 ▸ hlt a (by simp)
              rcases List.mem_cons.mp hz with hz1 | hz2
              · rw [hz1]; exact hbf
              · rcases List.mem_cons.mp hz2 with hz3 | hz4
                · rw [hz3]; exact lt_of_lt_of_le hbf (not_lt.mp hy)
                · exact hlt z (by simp [hz4])

/-- C3: the node popped by search_path, min(open_, key=f), belongs to the
open list, attains the minimum f over the whole open list, is the first
minimal node in scan order (everything before it has strictly larger f),
and, the open list being pairwise grid-distinct, open_.remove deletes
exactly it. -/
theorem popped_node_minimal (x : Node) (xs : List Node)
    (hdist : (x :: xs).Pairwise (fun a b => a.grid_pos ≠ b.grid_pos)) :
    py_min_aux x xs ∈ x :: xs ∧
    (∀ y ∈ x :: xs, (py_min_aux x xs).f ≤ y.f) ∧
    ∃ l1 l2, x :: xs = l1 ++ py_min_aux x xs :: l2 ∧
      (∀ y ∈ l1, (py_min_aux x xs).f < y.f) ∧
      remove_first_eq (x :: xs) (py_min_aux x xs) = l1 ++ l2 := by
  obtain ⟨l1, l2, hsplit, hlt⟩ := py_min_aux_first xs x
  have hmem : py_min_aux x xs ∈ x :: xs := by
    rw [hsplit]; exact List.mem_append.mpr (Or.inr (by simp))
  have hmin : ∀ y ∈ x :: xs, (py_min_aux x xs).f ≤ y.f := by
    intro y hy
    rcases List.mem_cons.mp hy with rfl | hy2
    · exact (py_min_aux_le xs y).1
    · exact (py_min_aux_le xs x).2 y hy2
  refine ⟨hmem, hmin, l1, l2, hsplit, hlt, ?_⟩
  have hd2 := hsplit ▸ hdist
  have h1 : ∀ y ∈ l1, y.grid_pos ≠ (py_min_aux x xs).grid_pos := by
    intro y hy
    exact (List.pairwise_append.mp hd2).2.2 y hy (py_min_aux x xs) (by simp)
  rw [hsplit]
  exact remove_first_eq_append (py_min_aux x xs) (py_min_aux x xs) l2 l1 rfl h1

/-- Witness for C3 at a concrete two-element open list. -/
theorem popped_node_minimal_witness :
    py_min_aux nodeC [nodeA] ∈ nodeC :: [nodeA] ∧
    (∀ y ∈ nodeC :: [nodeA], (py_min_aux nodeC [nodeA]).f ≤ y.f) ∧
    ∃ l1 l2, nodeC :: [nodeA] = l1 ++ py_min_aux nodeC [nodeA] :: l2 ∧
      (∀ y ∈ l1, (py_min_aux nodeC [nodeA]).f < y.f) ∧
      remove_first_eq (nodeC :: [nodeA]) (py_min_aux nodeC [nodeA]) =
        l1 ++ l2 :=
  popped_node_minimal nodeC [nodeA]
    (by simp [List.pairwise_cons, nodeA, nodeC, Node.grid_pos])


/-- Python remove yields a sublist. -/
theorem remove_first_eq_sublist (n : Node) :
    ∀ l : List Node, List.Sublist (remove_first_eq l n) l := by
  intro l
  induction l with
  | nil => simp [remove_first_eq]
  | cons x xs ih =>
      simp only [remove_first_eq]
      by_cases h : node_eq x n = true
      · simp only [h, if_true]
        exact List.sublist_cons_self x xs
      · simp only [h, if_false]
        exact List.Sublist.cons₂ x ih

/-- After removal on a pairwise grid-distinct list, no remaining element
matches the removed key. -/
theorem remove_first_eq_no_match (child : Node) :
    ∀ l : List Node, l.Pairwise (fun a b => a.grid_pos ≠ b.grid_pos) →
    ∀ m ∈ remove_first_eq l child, m.grid_pos ≠ child.grid_pos := by
  intro l
  induction l with
  | nil => simp [remove_first_eq]
  | cons x xs ih =>
      intro hp m hm
      simp only [remove_first_eq] at hm
      by_cases h : node_eq x child = true
      · simp only [h, if_true] at hm
        have hx : x.grid_pos = child.grid_pos := by
          simpa [node_eq] using h
        have hxm := (List.pairwise_cons.mp hp).1 m hm
        rw [← hx]
        exact fun he => hxm he.symm
      · simp only [h, if_false] at hm
        rcases List.mem_cons.mp hm with hm1 | hm2
        · rw [hm1]
          simpa [node_eq] using h
        · exact ih (List.pairwise_cons.mp hp).2 m hm2

/-- Admission of one child preserves pairwise grid-distinctness of the
open list. -/
theorem admit_child_pairwise (closed_ open_ : List Node) (child : Node)
    (h : open_.Pairwise (fun a b => a.grid_pos ≠ b.grid_pos)) :
    (admit_child closed_ open_ child).Pairwise
      (fun a b => a.grid_pos ≠ b.grid_pos) := by
  by_cases hcl : mem_eq child closed_ = true
  · simpa [admit_child, hcl] using h
  · rcases hfind : open_.find? (fun m => node_eq m child) with - | ex
    · have hnone := List.find?_eq_none.mp hfind
      have hgoal : admit_child closed_ open_ child = open_ ++ [child] := by
        simp [admit_child, hcl, hfind]
      rw [hgoal, List.pairwise_append]
      refine ⟨h, by simp, ?_⟩
      intro a ha b hb
      rw [List.mem_singleton.mp hb]
      intro he
      exact absurd (by simp [node_eq, he]) (hnone a ha)
    · by_cases hg : child.g < ex.g
      · have hgoal : admit_child closed_ open_ child
            = remove_first_eq open_ child ++ [child] := by
          simp [admit_child, hcl, hfind, hg]
        rw [hgoal, List.pairwise_append]
        refine ⟨h.sublist (remove_first_eq_sublist child open_), by simp, ?_⟩
        intro a ha b hb
        rw [List.mem_singleton.mp hb]
        exact remove_first_eq_no_match child open_ h a ha
      · have hgoal : admit_child closed_ open_ child = open_ := by
          simp [admit_child, hcl, hfind, hg]
        rw [hgoal]
        exact h

/-- Admitting a whole children list preserves pairwise grid-distinctness. -/
theorem admit_children_pairwise (closed_ : List Node) :
    ∀ children open_ : List Node,
    open_.Pairwise (fun a b => a.grid_pos ≠ b.grid_pos) →
    (admit_children closed_ open_ children).Pairwise
      (fun a b => a.grid_pos ≠ b.grid_pos) := by
  intro children
  induction children with
  | nil => exact fun open_ h => h
  | cons c cs ih =>
      intro open_ h
      exact ih (admit_child closed_ open_ c) (admit_child_pairwise closed_ open_ c h)

/-- A non-terminal iteration of the loop body continues with the expanded
open list and the unchanged closed list. -/
theorem search_step_inr {cfg : Config} {heu : ℕ} {extra : Bool}
    {best : Node} {open_ closed_ : List Node} {count : ℕ}
    {o2 c2 : List Node}
    (h : search_step cfg heu extra best open_ closed_ count =
      Sum.inr (o2, c2)) :
    o2 = expand_step cfg heu extra best open_ closed_ ∧ c2 = closed_ := by
  by_cases h1 : count % cfg.check_dubins = 0
  · simp only [search_step, h1, if_true] at h
    by_cases h2 : (tangent_to_goal cfg best.pos).2.2 = true
    · simp [h2] at h
    · simp only [Bool.not_eq_true] at h2
      simp only [h2, Bool.false_eq_true, if_false, Sum.inr.injEq,
        Prod.mk.injEq] at h
      exact ⟨h.1.symm, h.2.symm⟩
  · simp only [search_step, h1, if_false, Sum.inr.injEq, Prod.mk.injEq] at h
    exact ⟨h.1.symm, h.2.symm⟩

/-- C10: at the head of every iteration of the search loop the open list
is pairwise grid-distinct: no two distinct open entries compare equal
under Node.__eq__. -/
theorem open_list_pairwise_distinct (cfg : Config) (heu : ℕ) (extra : Bool)
    (open_ closed_ : List Node) (count : ℕ)
    (h : SearchReach cfg heu extra open_ closed_ count) :
    open_.Pairwise (fun a b => a.grid_pos ≠ b.grid_pos) := by
  induction h with
  | init => simp
  | step x xs closed_ count o2 c2 hr hstep ih =>
      obtain ⟨ho2, -⟩ := search_step_inr hstep
      rw [ho2]
      unfold expand_step
      exact admit_children_pairwise _ _ _
        (ih.sublist (remove_first_eq_sublist _ _))

/-- Witness for C10 at the initial loop state of the trivial
configuration. -/
theorem open_list_pairwise_distinct_witness :
    List.Pairwise (fun a b => a.grid_pos ≠ b.grid_pos)
      [search_root sample_cfg 0] :=
  open_list_pairwise_distinct sample_cfg 0 false [search_root sample_cfg 0]
    [] 0 SearchReach.init

/-- A member of the list makes the Python membership test true. -/
theorem mem_eq_of_mem {n : Node} {l : List Node} (h : n ∈ l) :
    mem_eq n l = true := by
  rw [mem_eq_iff]
  exact ⟨n, h, rfl⟩

/-- The Python membership test is false exactly when no element matches
the grid key. -/
theorem mem_eq_false_iff (n : Node) (l : List Node) :
    mem_eq n l = false ↔ ∀ m ∈ l, m.grid_pos ≠ n.grid_pos := by
  rw [← Bool.not_eq_true, mem_eq_iff]
  push_neg
  exact Iff.rfl

/-- Sorting by f preserves pairwise grid-distinctness. -/
theorem sort_by_f_pairwise {l : List Node}
    (h : l.Pairwise (fun a b => a.grid_pos ≠ b.grid_pos)) :
    (sort_by_f l).Pairwise (fun a b => a.grid_pos ≠ b.grid_pos) := by
  have hp : List.Perm (sort_by_f l) l := List.mergeSort_perm l _
  exact (List.Perm.pairwise_iff (fun hab => Ne.symm hab) hp).mpr h

/-- The sort of best_final_shot is ascending in f. -/
theorem sort_by_f_sorted (l : List Node) :
    (sort_by_f l).Pairwise (fun a b => a.f ≤ b.f) := by
  have htrans : ∀ a b c : Node, decide (a.f ≤ b.f) = true →
      decide (b.f ≤ c.f) = true → decide (a.f ≤ c.f) = true := by
    intro a b c hab hbc
    simp only [decide_eq_true_eq] at hab hbc ⊢
    exact le_trans hab hbc
  have htot : ∀ a b : Node,
      (decide (a.f ≤ b.f) || decide (b.f ≤ a.f)) = true := by
    intro a b
    simp [le_total]
  have h := List.sorted_mergeSort htrans htot l
  exact h.imp (by intro a b hab; simpa using hab)

/-- The incumbent-refining fold of best_final_shot: the result is either
the initial incumbent or a scanned candidate with a valid tangent, it
never exceeds the initial cost + g_, and it is at most the value of every
valid scanned candidate. -/
theorem bfs_fold_spec (cfg : Config) :
    ∀ (cands : List Node) (acc r : Node × ℚ × List RouteItem),
    cands.foldl (bfs_step cfg) acc = r →
    (r = acc ∨ (r.1 ∈ cands ∧
      tangent_to_goal cfg r.1.pos = (r.2.2, r.2.1, true))) ∧
    r.2.1 + r.1.g_ ≤ acc.2.1 + acc.1.g_ ∧
    ∀ c ∈ cands, (tangent_to_goal cfg c.pos).2.2 = true →
      r.2.1 + r.1.g_ ≤ (tangent_to_goal cfg c.pos).2.1 + c.g_ := by
  intro cands
  induction cands with
  | nil =>
      intro acc r hr
      simp only [List.foldl_nil] at hr
      subst hr
      exact ⟨Or.inl rfl, le_rfl, by simp⟩
  | cons c cs ih =>
      intro acc r hr
      simp only [List.foldl_cons] at hr
      by_cases hc : (tangent_to_goal cfg c.pos).2.2 = true ∧
          (tangent_to_goal cfg c.pos).2.1 + c.g_ < acc.2.1 + acc.1.g_
      · have hstep : bfs_step cfg acc c =
            (c, (tangent_to_goal cfg c.pos).2.1,
              (tangent_to_goal cfg c.pos).1) := by
          simp only [bfs_step]
          rw [if_pos hc]
        rw [hstep] at hr
        obtain ⟨hprov, hle, hall⟩ := ih _ r hr
        have hval : r.2.1 + r.1.g_ ≤
            (tangent_to_goal cfg c.pos).2.1 + c.g_ := by
          simpa using hle
        refine ⟨?_, le_trans hval (le_of_lt hc.2), ?_⟩
        · rcases hprov with h1 | h2
          · right
            have ht : tangent_to_goal cfg c.pos =
                ((tangent_to_goal cfg c.pos).1,
                  (tangent_to_goal cfg c.pos).2.1, true) := by
              rw [← hc.1]
            constructor
            · rw [h1]; exact List.mem_cons_self c cs
            · rw [h1]; exact ht
          · exact Or.inr ⟨List.mem_cons_of_mem c h2.1, h2.2⟩
        · intro z hz hv
          rcases List.mem_cons.mp hz with hz1 | hz2
          · rw [hz1]; exact hval
          · exact hall z hz2 hv
      · have hstep : bfs_step cfg acc c = acc := by
          simp only [bfs_step]
          rw [if_neg hc]
        rw [hstep] at hr
        obtain ⟨hprov, hle, hall⟩ := ih acc r hr
        refine ⟨?_, hle, ?_⟩
        · rcases hprov with h1 | h2
          · exact Or.inl h1
          · exact Or.inr ⟨List.mem_cons_of_mem c h2.1, h2.2⟩
        · intro z hz hv
          rcases List.mem_cons.mp hz with hz1 | hz2
          · have hnlt : ¬ ((tangent_to_goal cfg c.pos).2.1 + c.g_ <
                acc.2.1 + acc.1.g_) := by
              intro hlt
              rw [hz1] at hv
              exact hc ⟨hv, hlt⟩
            rw [hz1]
            exact le_trans hle (not_lt.mp hnlt)
          · exact hall z hz2 hv

/-- Full behaviour of best_final_shot: the returned candidate minimises
shortcut cost + g_ over the incumbent and the first ten sorted valid open
nodes, those ten are the lowest-f open nodes, the winner is either the
incumbent (with its data unchanged) or a scanned open candidate carrying
its own valid tangent data, and it ends up on the closed list and off the
open list. -/
theorem best_final_shot_spec (cfg : Config) (open_ closed_ : List Node)
    (best : Node) (cost : ℚ) (d_route : List RouteItem)
    (hps : open_.Pairwise (fun a b => a.grid_pos ≠ b.grid_pos))
    (hbc : best ∈ closed_) :
    ∃ best2 cost2 droute2 open2 closed2,
      best_final_shot cfg open_ closed_ best cost d_route 10 =
        (best2, cost2, droute2, open2, closed2) ∧
      cost2 + best2.g_ ≤ cost + best.g_ ∧
      (∀ c ∈ (sort_by_f open_).take 10,
        (tangent_to_goal cfg c.pos).2.2 = true →
        cost2 + best2.g_ ≤ (tangent_to_goal cfg c.pos).2.1 + c.g_) ∧
      (∀ a ∈ (sort_by_f open_).take 10, ∀ b ∈ (sort_by_f open_).drop 10,
        a.f ≤ b.f) ∧
      ((best2 = best ∧ cost2 = cost ∧ droute2 = d_route) ∨
        (best2 ∈ (sort_by_f open_).take 10 ∧
          tangent_to_goal cfg best2.pos = (droute2, cost2, true))) ∧
      best2 ∈ closed2 ∧ mem_eq best2 open2 = false := by
  obtain ⟨r, hrdef⟩ : ∃ r, ((sort_by_f open_).take 10).foldl (bfs_step cfg)
      (best, cost, d_route) = r := ⟨_, rfl⟩
  obtain ⟨hprov, hle, hall⟩ := bfs_fold_spec cfg ((sort_by_f open_).take 10)
    (best, cost, d_route) r hrdef
  have hsorted := sort_by_f_sorted open_
  rw [← List.take_append_drop 10 (sort_by_f open_)] at hsorted
  have hlow := (List.pairwise_append.mp hsorted).2.2
  by_cases hmem : mem_eq r.1 (sort_by_f open_) = true
  · refine ⟨r.1, r.2.1, r.2.2, remove_first_eq (sort_by_f open_) r.1,
      closed_ ++ [r.1], ?_, by simpa using hle, hall, hlow, ?_, by simp, ?_⟩
    · simp only [best_final_shot]
      rw [hrdef, if_pos hmem]
    · rcases hprov with h1 | h2
      · exact Or.inl ⟨by rw [h1], by rw [h1], by rw [h1]⟩
      · exact Or.inr h2
    · exact (mem_eq_false_iff _ _).mpr
        (remove_first_eq_no_match r.1 (sort_by_f open_)
          (sort_by_f_pairwise hps))
  · have hmemf : mem_eq r.1 (sort_by_f open_) = false := by
      cases hb : mem_eq r.1 (sort_by_f open_)
      · rfl
      · exact absurd hb hmem
    have h1 : r = (best, cost, d_route) := by
      rcases hprov with h1 | h2
      · exact h1
      · exact absurd (mem_eq_of_mem (List.take_subset 10 (sort_by_f open_)
          h2.1)) hmem
    refine ⟨r.1, r.2.1, r.2.2, sort_by_f open_, closed_, ?_,
      by simpa using hle, hall, hlow,
      Or.inl ⟨by rw [h1], by rw [h1], by rw [h1]⟩, ?_, hmemf⟩
    · simp only [best_final_shot]
      rw [hrdef, if_neg hmem]
    · rw [h1]
      exact hbc

/-- C4: on a check_dubins iteration whose popped minimum-f node admits a
valid dubins tangent to the goal, search_path calls best_final_shot, which
scans the up-to-ten lowest-f remaining open nodes and keeps the candidate
minimising shortcut cost + g_; the chosen node ends up on the closed list
and off the open list, and the loop terminates returning
get_path(start, backtracking(chosen) ++ shortcut route) with the closed
list. -/
theorem dubins_shortcut_terminates (cfg : Config) (heu : ℕ) (extra : Bool)
    (fuel : ℕ) (x : Node) (xs closed_ : List Node) (count : ℕ)
    (d_route : List RouteItem) (cost : ℚ)
    (hmod : (count + 1) % cfg.check_dubins = 0)
    (hvalid : tangent_to_goal cfg (py_min_aux x xs).pos =
      (d_route, cost, true))
    (hdist : (x :: xs).Pairwise (fun a b => a.grid_pos ≠ b.grid_pos)) :
    ∃ best2 cost2 droute2 open2 closed2,
      best_final_shot cfg (remove_first_eq (x :: xs) (py_min_aux x xs))
          (closed_ ++ [py_min_aux x xs]) (py_min_aux x xs) cost d_route 10 =
        (best2, cost2, droute2, open2, closed2) ∧
      search_loop cfg heu extra (fuel + 1) (x :: xs) closed_ count =
        SearchResult.found
          (cfg.get_path cfg.start (backtracking best2 ++ droute2)) closed2 ∧
      cost2 + best2.g_ ≤ cost + (py_min_aux x xs).g_ ∧
      (∀ c ∈ (sort_by_f (remove_first_eq (x :: xs)
          (py_min_aux x xs))).take 10,
        (tangent_to_goal cfg c.pos).2.2 = true →
        cost2 + best2.g_ ≤ (tangent_to_goal cfg c.pos).2.1 + c.g_) ∧
      (∀ a ∈ (sort_by_f (remove_first_eq (x :: xs)
          (py_min_aux x xs))).take 10,
        ∀ b ∈ (sort_by_f (remove_first_eq (x :: xs)
          (py_min_aux x xs))).drop 10, a.f ≤ b.f) ∧
      ((best2 = py_min_aux x xs ∧ cost2 = cost ∧ droute2 = d_route) ∨
        (best2 ∈ (sort_by_f (remove_first_eq (x :: xs)
            (py_min_aux x xs))).take 10 ∧
          tangent_to_goal cfg best2.pos = (droute2, cost2, true))) ∧
      best2 ∈ closed2 ∧ mem_eq best2 open2 = false := by
  obtain ⟨b2, c2, dr2, o2, cl2, hbfs, hmin, hcand, hlow, hprov, hmovc, hmovo⟩ :=
    best_final_shot_spec cfg (remove_first_eq (x :: xs) (py_min_aux x xs))
      (closed_ ++ [py_min_aux x xs]) (py_min_aux x xs) cost d_route
      (hdist.sublist (remove_first_eq_sublist _ _)) (by simp)
  refine ⟨b2, c2, dr2, o2, cl2, hbfs, ?_, hmin, hcand, hlow, hprov,
    hmovc, hmovo⟩
  have hstep : search_step cfg heu extra (py_min_aux x xs)
      (remove_first_eq (x :: xs) (py_min_aux x xs))
      (closed_ ++ [py_min_aux x xs]) (count + 1) =
      Sum.inl (SearchResult.found
        (cfg.get_path cfg.start (backtracking b2 ++ dr2)) cl2) := by
    simp only [search_step, hmod, if_true, hvalid, hbfs]
  simp only [search_loop]
  rw [hstep]

/-- Witness for C4 at a concrete singleton open list with the always-valid
tangent configuration. -/
theorem dubins_shortcut_terminates_witness :
    ∃ best2 cost2 droute2 open2 closed2,
      best_final_shot sample_cfg_valid
          (remove_first_eq (nodeC :: []) (py_min_aux nodeC []))
          ([] ++ [py_min_aux nodeC []]) (py_min_aux nodeC []) 0 [] 10 =
        (best2, cost2, droute2, open2, closed2) ∧
      search_loop sample_cfg_valid 0 false (0 + 1) (nodeC :: []) [] 0 =
        SearchResult.found
          (sample_cfg_valid.get_path sample_cfg_valid.start
            (backtracking best2 ++ droute2)) closed2 ∧
      cost2 + best2.g_ ≤ 0 + (py_min_aux nodeC []).g_ ∧
      (∀ c ∈ (sort_by_f (remove_first_eq (nodeC :: [])
          (py_min_aux nodeC []))).take 10,
        (tangent_to_goal sample_cfg_valid c.pos).2.2 = true →
        cost2 + best2.g_ ≤
          (tangent_to_goal sample_cfg_valid c.pos).2.1 + c.g_) ∧
      (∀ a ∈ (sort_by_f (remove_first_eq (nodeC :: [])
          (py_min_aux nodeC []))).take 10,
        ∀ b ∈ (sort_by_f (remove_first_eq (nodeC :: [])
          (py_min_aux nodeC []))).drop 10, a.f ≤ b.f) ∧
      ((best2 = py_min_aux nodeC [] ∧ cost2 = 0 ∧ droute2 = []) ∨
        (best2 ∈ (sort_by_f (remove_first_eq (nodeC :: [])
            (py_min_aux nodeC []))).take 10 ∧
          tangent_to_goal sample_cfg_valid best2.pos =
            (droute2, cost2, true))) ∧
      best2 ∈ closed2 ∧ mem_eq best2 open2 = false :=
  dubins_shortcut_terminates sample_cfg_valid 0 false 0 nodeC [] [] 0 [] 0
    (by decide) rfl (by simp)
